import Mathlib

set_option maxRecDepth 100000

/-
Verification of the answer-matching engine of the revision-quiz program
(`main.py`).  Strings are modelled as `List Char`; Python floats are
modelled as exact rationals (`ℚ`); fallible operations return `Option`
or `Except`.  The two genuinely Unicode-dependent primitives used by
`normalize_text` — `unicodedata.normalize("NFKC", ·)` and `str.lower` —
are parameters of the embedding (a `Unicode` structure); everything
else is embedded concretely.  `asciiUnicode` instantiates the two
parameters with their restriction to the ASCII plane, which agrees with
CPython on every ASCII string.
-/

/-- Python's Unicode whitespace class (`Py_UNICODE_ISSPACE`), used both by
`str.strip()` and by `\s` in `re` patterns on `str`. -/
def pyIsSpace (c : Char) : Bool :=
  let n := c.toNat
  n == 9 || n == 10 || n == 11 || n == 12 || n == 13 ||
  (28 ≤ n && n ≤ 31) || n == 32 || n == 133 || n == 160 ||
  n == 5760 || (8192 ≤ n && n ≤ 8202) || n == 8232 || n == 8233 ||
  n == 8239 || n == 8287 || n == 12288

/-- The character class kept by `re.sub(r"[^0-9a-z\s]", " ", s)` apart from
whitespace: ASCII digits and lowercase ASCII letters. -/
def isKeep (c : Char) : Bool :=
  let n := c.toNat
  (48 ≤ n && n ≤ 57) || (97 ≤ n && n ≤ 122)

/-- The smart-quote replacement performed by `normalize_text`:
`s.replace("’", "'").replace("‘", "'").replace("“", '"').replace("”", '"')`.
Each pattern is a single character, so the substring replacement is a
character-wise map. -/
def quoteMap (c : Char) : Char :=
  if c = '’' then '\'' else if c = '‘' then '\''
  else if c = '“' then '"' else if c = '”' then '"' else c

/-- Drop trailing characters satisfying `pyIsSpace` (the right half of
Python's `str.strip()`). -/
def dropTrailingWs : List Char → List Char
  | [] => []
  | c :: rest =>
    let r := dropTrailingWs rest
    if r = [] && pyIsSpace c then [] else c :: r

/-- Python `str.strip()`: remove leading and trailing Unicode whitespace. -/
def pyStrip (l : List Char) : List Char :=
  dropTrailingWs (l.dropWhile pyIsSpace)

/-- `re.sub(r"\s+", " ", s)`: replace every maximal run of whitespace
characters by a single ASCII space.  The flag records whether the
previous character belonged to a whitespace run still being replaced. -/
def collapseAux : Bool → List Char → List Char
  | _, [] => []
  | prevWs, c :: rest =>
    if pyIsSpace c then
      if prevWs then collapseAux true rest else ' ' :: collapseAux true rest
    else c :: collapseAux false rest

/-- The replacement performed characterwise by
`re.sub(r"[^0-9a-z\s]", " ", s)`. -/
def punctMap (c : Char) : Char :=
  if isKeep c || pyIsSpace c then c else ' '

/-- No two adjacent ASCII spaces (part of the shape invariant of
normalized text). -/
def sepOk : List Char → Bool
  | a :: b :: rest => !(decide (a = ' ') && decide (b = ' ')) && sepOk (b :: rest)
  | _ => true

/-- The two Unicode-dependent primitives of `normalize_text`:
`unicodedata.normalize("NFKC", ·)` and the per-character expansion of
`str.lower()`. -/
structure Unicode where
  nfkc : List Char → List Char
  lower : Char → List Char

/-- `normalize_text` from `main.py`: NFKC-normalize, replace smart quotes,
`strip().lower()`, replace every character outside `[0-9a-z\s]` by a
space, collapse whitespace runs to single spaces, and strip. -/
def normalize_text (U : Unicode) (s : List Char) : List Char :=
  let s1 := U.nfkc s
  let s2 := s1.map quoteMap
  let s3 := (pyStrip s2).flatMap U.lower
  let s4 := s3.map punctMap
  pyStrip (collapseAux false s4)

/-- First whitespace-delimited token of a string (`s.split()[0]`, or `[]`
when there is no token). -/
def firstToken (l : List Char) : List Char :=
  (l.dropWhile pyIsSpace).takeWhile (fun c => !pyIsSpace c)

/-- The character class `[a-zA-Z0-9]` of the option-token regular
expression. -/
def isAsciiAlnum (c : Char) : Bool :=
  let n := c.toNat
  (48 ≤ n && n ≤ 57) || (65 ≤ n && n ≤ 90) || (97 ≤ n && n ≤ 122)

/-- Whether `re.match(r"^([a-zA-Z0-9])[\.\)]?$", first)` succeeds, and if so
its capture group: a single alphanumeric character optionally followed by
`.` or `)`. -/
def optionTokenOf : List Char → Option Char
  | [c] => if isAsciiAlnum c then some c else none
  | [c, d] => if isAsciiAlnum c && (d = '.' || d = ')') then some c else none
  | _ => none

/-- `normalize_option` from `main.py`: normalize, then reduce the first
token to a bare option character when it matches the option regular
expression; otherwise return the whole normalized string. -/
def normalize_option (U : Unicode) (s : List Char) : List Char :=
  let n := normalize_text U s
  if n = [] then []
  else
    match optionTokenOf (firstToken n) with
    | some c => [c]
    | none => n

/-- The `_WORD_NUMS` table of `main.py`. -/
def wordNumVal (w : List Char) : Option Nat :=
  if w = "zero".data then some 0
  else if w = "one".data then some 1
  else if w = "two".data then some 2
  else if w = "three".data then some 3
  else if w = "four".data then some 4
  else if w = "five".data then some 5
  else if w = "six".data then some 6
  else if w = "seven".data then some 7
  else if w = "eight".data then some 8
  else if w = "nine".data then some 9
  else if w = "ten".data then some 10
  else if w = "eleven".data then some 11
  else if w = "twelve".data then some 12
  else if w = "thirteen".data then some 13
  else if w = "fourteen".data then some 14
  else if w = "fifteen".data then some 15
  else if w = "sixteen".data then some 16
  else if w = "seventeen".data then some 17
  else if w = "eighteen".data then some 18
  else if w = "nineteen".data then some 19
  else if w = "twenty".data then some 20
  else if w = "thirty".data then some 30
  else if w = "forty".data then some 40
  else if w = "fifty".data then some 50
  else if w = "sixty".data then some 60
  else if w = "seventy".data then some 70
  else if w = "eighty".data then some 80
  else if w = "ninety".data then some 90
  else none

/-- Helper for `pySplitWs`: accumulate the current (reversed) token. -/
def splitWsGo : List Char → List Char → List (List Char)
  | acc, [] => if acc = [] then [] else [acc.reverse]
  | acc, c :: rest =>
    if pyIsSpace c then
      if acc = [] then splitWsGo [] rest else acc.reverse :: splitWsGo [] rest
    else splitWsGo (c :: acc) rest

/-- Python `s.split()`: split on runs of Unicode whitespace, discarding
empty tokens. -/
def pySplitWs (l : List Char) : List (List Char) :=
  splitWsGo [] l

/-- The scanning loop of `word_number_to_int`: left-to-right over the
tokens, where a word valued `≥ 20` followed by a word valued `< 10`
combines additively and consumes both tokens; any token outside
`_WORD_NUMS` makes the whole parse fail. -/
def wnGo : List (List Char) → Option Nat
  | [] => some 0
  | [w] =>
    match wordNumVal w with
    | none => none
    | some v => (wnGo []).map (· + v)
  | w :: w2 :: rest2 =>
    match wordNumVal w with
    | none => none
    | some v =>
      match wordNumVal w2 with
      | some v2 =>
        if 20 ≤ v && v2 < 10 then (wnGo rest2).map (· + (v + v2))
        else (wnGo (w2 :: rest2)).map (· + v)
      | none => (wnGo (w2 :: rest2)).map (· + v)

/-- `word_number_to_int` from `main.py`. -/
def word_number_to_int (U : Unicode) (s : List Char) : Option Nat :=
  let n := normalize_text U s
  if n = [] then none else wnGo (pySplitWs n)

/-- Value of a nonempty digit string. -/
def digitsToNat? (l : List Char) : Option Nat :=
  if l ≠ [] ∧ l.all (fun c => 48 ≤ c.toNat && c.toNat ≤ 57) then
    some (l.foldl (fun acc c => acc * 10 + (c.toNat - 48)) 0)
  else none

/-- Python `float(s)` restricted to strings already passed through
`normalize_text` (so the alphabet is `[0-9a-z ]`: no sign, no dot, no
underscores).  The surviving forms are a digit string, optionally
followed by `e` and a digit exponent.  The literals `inf`, `infinity`
and `nan` are deliberately mapped to `none`: in the program they are
used only in the ε-comparison `abs(x - y) < 1e-9`, which is false for
every infinite or NaN operand, so acceptance is unchanged. -/
def pyFloatOfNorm (l : List Char) : Option ℚ :=
  match l.splitOn 'e' with
  | [d] => (digitsToNat? d).map (fun n => (n : ℚ))
  | [d, ex] =>
    match digitsToNat? d, digitsToNat? ex with
    | some n, some e => some ((n : ℚ) * 10 ^ e)
    | _, _ => none
  | _ => none

/-- `is_numeric` from `main.py`: normalize, try a float literal, then the
word-number parser. -/
def is_numeric (U : Unicode) (s : List Char) : Option ℚ :=
  let n := normalize_text U s
  if n = [] then none
  else
    match pyFloatOfNorm n with
    | some x => some x
    | none =>
      match word_number_to_int U n with
      | some wn => some (wn : ℚ)
      | none => none

/-- Length of the common prefix of two strings. -/
def runLen : List Char → List Char → Nat
  | x :: xs, y :: ys => if x = y then runLen xs ys + 1 else 0
  | _, _ => 0

/-- All index pairs scanned by `difflib`'s longest-match search, in the
order `i` ascending then `j` ascending. -/
def indexPairs (la lb : Nat) : List (Nat × Nat) :=
  (List.range la).flatMap (fun i => (List.range lb).map (fun j => (i, j)))

/-- One step of the longest-match search: keep the incumbent unless the
candidate block is strictly longer (so the earliest maximal block wins,
as in `difflib.SequenceMatcher.find_longest_match`). -/
def lmStep (a b : List Char) (acc : Nat × Nat × Nat) (ij : Nat × Nat) :
    Nat × Nat × Nat :=
  let k := runLen (a.drop ij.1) (b.drop ij.2)
  if acc.2.2 < k then (ij.1, ij.2, k) else acc

/-- `difflib.SequenceMatcher.find_longest_match` with no junk (the strings
compared by the program are far below the 200-character autojunk
threshold): the longest matching block `(i, j, k)` with ties broken
towards the smallest `i`, then the smallest `j`. -/
def longestMatch (a b : List Char) : Nat × Nat × Nat :=
  (indexPairs a.length b.length).foldl (lmStep a b) (0, 0, 0)

/-- The recursion of `difflib.SequenceMatcher.get_matching_blocks`,
summed: total size of all matching blocks.  The fuel bounds the
recursion depth; each recursive call strictly decreases the combined
length of the two strings, so `a.length + b.length` is always enough. -/
def mtGo : Nat → List Char → List Char → Nat
  | 0, _, _ => 0
  | fuel + 1, a, b =>
    let lm := longestMatch a b
    if lm.2.2 = 0 then 0
    else
      mtGo fuel (a.take lm.1) (b.take lm.2.1) + lm.2.2 +
        mtGo fuel (a.drop (lm.1 + lm.2.2)) (b.drop (lm.2.1 + lm.2.2))

/-- Total matched characters of `difflib.SequenceMatcher(None, a, b)`. -/
def matchingBlocksTotal (a b : List Char) : Nat :=
  mtGo (a.length + b.length) a b

/-- `difflib.SequenceMatcher(None, a, b).ratio() * 100.0`: twice the
matched total over the combined length, scaled to 0–100 (and 100 when
both strings are empty, as in `difflib._calculate_ratio`). -/
def dlRatio (a b : List Char) : ℚ :=
  if a.length + b.length = 0 then 100
  else 2 * (matchingBlocksTotal a b : ℚ) / ((a.length + b.length : Nat) : ℚ) * 100

/-- The optional preferred similarity backend (`rapidfuzz.fuzz.
token_sort_ratio`): `none` models `_HAS_RAPIDFUZZ` being false (import
failed, `fuzz is None`, or the attribute missing); a call may itself
raise, modelled by `Except`. -/
def Backend : Type :=
  Option (List Char → List Char → Except (List Char) ℚ)

/-- `_fuzzy_ratio` from `main.py`: use the preferred backend when present
and successful; on absence or any exception fall back to the
`difflib` ratio. -/
def fuzzy_ratio (be : Backend) (a b : List Char) : ℚ :=
  match be with
  | none => dlRatio a b
  | some f =>
    match f a b with
    | .ok s => s
    | .error _ => dlRatio a b

/-- The ε of the numeric rule (`1e-9`, modelled exactly). -/
def numEps : ℚ := 1 / 1000000000

/-- The fuzzy acceptance threshold (`fuzzy_threshold = 88.0`). -/
def fuzzyThreshold : ℚ := 88

/-- Rule 1 of the matching loop: exact equality of normalized forms, both
nonempty. -/
def exactRule (U : Unicode) (u ca : List Char) : Bool :=
  decide (normalize_text U u ≠ [] ∧ normalize_text U ca ≠ [] ∧
    normalize_text U u = normalize_text U ca)

/-- Rule 2 of the matching loop: equality of extracted option tokens, both
nonempty. -/
def optionRule (U : Unicode) (u ca : List Char) : Bool :=
  decide (normalize_option U u ≠ [] ∧ normalize_option U ca ≠ [] ∧
    normalize_option U u = normalize_option U ca)

/-- Rule 3 of the matching loop: both sides coerce to numbers whose
absolute difference is below `1e-9`. -/
def numericRule (U : Unicode) (u ca : List Char) : Bool :=
  match is_numeric U u, is_numeric U ca with
  | some x, some y => decide (|x - y| < numEps)
  | _, _ => false

/-- Python's `needle in hay` on strings: `needle` occurs as a contiguous
substring of `hay`. -/
def substringOf (needle : List Char) : List Char → Bool
  | [] => needle.isPrefixOf []
  | c :: rest => needle.isPrefixOf (c :: rest) || substringOf needle rest

/-- Rule 4 of the matching loop: the nonempty normalized canonical answer
is a substring of the normalized user response. -/
def containRule (U : Unicode) (u ca : List Char) : Bool :=
  decide (normalize_text U ca ≠ []) &&
    substringOf (normalize_text U ca) (normalize_text U u)

/-- Rule 5 of the matching loop: fuzzy similarity of the two nonempty
normalized forms reaches the threshold. -/
def fuzzyRule (U : Unicode) (be : Backend) (u ca : List Char) : Bool :=
  decide (normalize_text U ca ≠ [] ∧ normalize_text U u ≠ []) &&
    decide (fuzzyThreshold ≤ fuzzy_ratio be (normalize_text U u) (normalize_text U ca))

/-- The per-candidate cascade of the loop body of `ask_question`: rules
1–5 in order, first success accepting the candidate. -/
def candidatePasses (U : Unicode) (be : Backend) (u ca : List Char) : Bool :=
  exactRule U u ca || optionRule U u ca || numericRule U u ca ||
    containRule U u ca || fuzzyRule U be u ca

/-- The result of the matching loop: the `accepted` flag and the raw
canonical answer recorded in `matched`. -/
structure MatchResult where
  accepted : Bool
  matched : Option (List Char)
deriving DecidableEq, Repr

/-- The matching loop of `ask_question`: candidates in the order given,
full five-rule cascade per candidate, first success breaking out of the
loop with that candidate recorded. -/
def matchAnswer (U : Unicode) (be : Backend) (u : List Char) :
    List (List Char) → MatchResult
  | [] => ⟨false, none⟩
  | ca :: rest =>
    if candidatePasses U be u ca then ⟨true, some ca⟩
    else matchAnswer U be u rest

/-- ASCII restriction of `str.lower()`: map `A`–`Z` to `a`–`z`, leave
everything else unchanged.  Agrees with CPython on the ASCII plane. -/
def asciiLower (c : Char) : List Char :=
  if 65 ≤ c.toNat && c.toNat ≤ 90 then [Char.ofNat (c.toNat + 32)] else [c]

/-- The ASCII instantiation of the two Unicode parameters: NFKC is the
identity on ASCII strings and `str.lower` is `asciiLower` there. -/
def asciiUnicode : Unicode :=
  ⟨fun l => l, asciiLower⟩

/-- A per-question performance record. -/
structure TopicStat where
  attempted : Nat
  correct : Nat
deriving DecidableEq, Repr

/-- The performance-store effect of one call of `ask_question`: create the
topic's record as `{attempted: 0, correct: 0}` when absent, increment
`attempted` unconditionally, and increment `correct` exactly when the
answer was accepted. -/
def askQuestionUpdate (perf : List Char → List Char → Option TopicStat)
    (key topic : List Char) (accepted : Bool) :
    List Char → List Char → Option TopicStat :=
  fun k t =>
    if k = key ∧ t = topic then
      let st := (perf key topic).getD ⟨0, 0⟩
      some ⟨st.attempted + 1, st.correct + (if accepted then 1 else 0)⟩
    else perf k t

/-- A JSON value, as returned by `json.loads`. -/
inductive Json where
  | null : Json
  | bool : Bool → Json
  | num : ℚ → Json
  | str : List Char → Json
  | arr : List Json → Json
  | obj : List (List Char × Json) → Json

/-- State of the performance-store file as seen by `load_performance`:
absent, present but unreadable (`open`/`read` raises an `OSError` whose
message is recorded), or readable with the given text. -/
inductive FileState where
  | absent : FileState
  | unreadable : List Char → FileState
  | content : List Char → FileState

/-- `load_performance` from `main.py`.  `parse` models `json.loads`, with
`none` standing for a `json.JSONDecodeError`.  The result pairs the
returned value with a flag recording whether the corruption warning was
printed; `Except.error` models an uncaught exception.  Only
`json.JSONDecodeError` is caught by the `try` block, so an `OSError`
raised while opening or reading the file propagates. -/
def load_performance (parse : List Char → Option Json) :
    FileState → Except (List Char) (Json × Bool)
  | .absent => .ok (.obj [], false)
  | .unreadable msg => .error msg
  | .content text =>
    let c := pyStrip text
    if c = [] then .ok (.obj [], false)
    else
      match parse c with
      | none => .ok (.obj [], true)
      | some v => .ok (v, false)

lemma matchAnswer_accepted_of_mem (U : Unicode) (be : Backend)
    (u ca : List Char) (cas : List (List Char)) (hmem : ca ∈ cas)
    (hpass : candidatePasses U be u ca = true) :
    (matchAnswer U be u cas).accepted = true := by
  induction cas with
  | nil => cases hmem
  | cons c rest ih =>
    by_cases hc : candidatePasses U be u c = true
    · simp [matchAnswer, hc]
    · rcases List.mem_cons.mp hmem with h | h
      · subst h; exact absurd hpass hc
      · simp only [matchAnswer, Bool.not_eq_true] at hc ⊢
        rw [hc]
        simpa using ih h

lemma candidatePasses_of_empty_norm (U : Unicode) (be : Backend)
    (u ca : List Char) (h : normalize_text U u = []) :
    candidatePasses U be u ca = false := by
  have hopt : normalize_option U u = [] := by
    simp [normalize_option, h]
  have hnum : is_numeric U u = none := by
    simp [is_numeric, h]
  have hcontain : containRule U u ca = false := by
    unfold containRule
    rw [h]
    rcases hca : normalize_text U ca with _ | ⟨c, rest⟩
    · simp
    · simp [substringOf, List.isPrefixOf]
  unfold candidatePasses exactRule optionRule numericRule fuzzyRule
  rw [h, hopt, hnum, hcontain]
  simp

/-- C2: matching is total, and a user response that normalizes to the
empty string is rejected against every canonical-answer sequence. -/
theorem match_empty_normalized_rejects (U : Unicode) (be : Backend)
    (u : List Char) (cas : List (List Char))
    (h : normalize_text U u = []) :
    (matchAnswer U be u cas).accepted = false := by
  induction cas with
  | nil => rfl
  | cons c rest ih =>
    simp only [matchAnswer, candidatePasses_of_empty_norm U be u c h]
    simpa using ih

/-- Witness for C2 at a pure-punctuation input. -/
theorem match_empty_normalized_rejects_witness :
    (matchAnswer asciiUnicode none "!?!".data ["anything".data]).accepted = false :=
  match_empty_normalized_rejects asciiUnicode none "!?!".data ["anything".data]
    (by decide)

/-- C4: whenever the user response and a listed canonical answer both
coerce to numbers (float literal or word-number) whose absolute
difference is below `1e-9`, the match is accepted. -/
theorem numeric_rule_accepts (U : Unicode) (be : Backend)
    (u ca : List Char) (cas : List (List Char)) (hmem : ca ∈ cas)
    (x y : ℚ) (hx : is_numeric U u = some x) (hy : is_numeric U ca = some y)
    (hd : |x - y| < numEps) :
    (matchAnswer U be u cas).accepted = true := by
  apply matchAnswer_accepted_of_mem U be u ca cas hmem
  have hnum : numericRule U u ca = true := by
    unfold numericRule
    rw [hx, hy]
    simpa using hd
  unfold candidatePasses
  rw [hnum]
  simp

/-- Witness for C4: word-number and digit forms are numerically equal in
both directions. -/
theorem numeric_rule_accepts_witness :
    (matchAnswer asciiUnicode none "3".data ["three".data]).accepted = true ∧
      (matchAnswer asciiUnicode none "three".data ["3".data]).accepted = true :=
  ⟨numeric_rule_accepts asciiUnicode none "3".data "three".data
      ["three".data] (by decide) 3 3 (by decide) (by decide)
      (by norm_num [numEps]),
    numeric_rule_accepts asciiUnicode none "three".data "3".data
      ["3".data] (by decide) 3 3 (by decide) (by decide)
      (by norm_num [numEps])⟩

/-- C6: a nonempty normalized canonical answer occurring as a substring of
the normalized user response makes the match accept. -/
theorem containment_accepts (U : Unicode) (be : Backend)
    (u ca : List Char) (cas : List (List Char)) (hmem : ca ∈ cas)
    (hne : normalize_text U ca ≠ [])
    (hsub : substringOf (normalize_text U ca) (normalize_text U u) = true) :
    (matchAnswer U be u cas).accepted = true := by
  apply matchAnswer_accepted_of_mem U be u ca cas hmem
  have hcontain : containRule U u ca = true := by
    unfold containRule
    rw [hsub]
    simpa using hne
  unfold candidatePasses
  rw [hcontain]
  simp

/-- Witness for C6 at the example of the specification. -/
theorem containment_accepts_witness :
    (matchAnswer asciiUnicode none "the answer is mitochondria for sure".data
      ["mitochondria".data]).accepted = true :=
  containment_accepts asciiUnicode none
    "the answer is mitochondria for sure".data "mitochondria".data
    ["mitochondria".data] (by decide) (by decide) (by decide)

lemma wnGo_none_of_mem : ∀ (parts : List (List Char)) (w : List Char),
    w ∈ parts → wordNumVal w = none → wnGo parts = none
  | [], w, hw, _ => absurd hw (by simp)
  | [w'], w, hw, hn => by
    have hww : w = w' := by simpa using hw
    subst hww
    simp [wnGo, hn]
  | w' :: w2 :: rest2, w, hw, hn => by
    rcases List.mem_cons.mp hw with h | h
    · subst h
      simp [wnGo, hn]
    · rcases hv : wordNumVal w' with _ | v
      · simp [wnGo, hv]
      · rcases hv2 : wordNumVal w2 with _ | v2
        · have hrec := wnGo_none_of_mem (w2 :: rest2) w h hn
          simp [wnGo, hv, hv2, hrec]
        · by_cases hc : (20 ≤ v && v2 < 10) = true
          · rcases List.mem_cons.mp h with h2 | h2
            · subst h2
              rw [hn] at hv2
              cases hv2
            · have hrec := wnGo_none_of_mem rest2 w h2 hn
              simp [wnGo, hv, hv2, hc, hrec]
          · have hrec := wnGo_none_of_mem (w2 :: rest2) w h hn
            simp only [Bool.not_eq_true] at hc
            simp [wnGo, hv, hv2, hc, hrec]

/-- C5: the word-number parser combines a tens word (value `≥ 20`)
followed by a units word (value `< 10`) additively, so `"twenty one"`
parses to `21` and matches `"21"`; and any token outside the fixed
table makes the whole parse yield no value. -/
theorem word_number_parse (U : Unicode) (s w : List Char)
    (hw : w ∈ pySplitWs (normalize_text U s)) (hn : wordNumVal w = none) :
    word_number_to_int U s = none ∧
      word_number_to_int asciiUnicode "twenty one".data = some 21 ∧
      (matchAnswer asciiUnicode none "twenty one".data
        ["21".data]).accepted = true := by
  refine ⟨?_, by decide, ?_⟩
  · unfold word_number_to_int
    by_cases h : normalize_text U s = []
    · simp [h]
    · rw [if_neg h]
      exact wnGo_none_of_mem _ w hw hn
  · apply matchAnswer_accepted_of_mem asciiUnicode none "twenty one".data
      "21".data _ (by decide)
    have hnum : numericRule asciiUnicode "twenty one".data "21".data = true := by
      have hx : is_numeric asciiUnicode "twenty one".data = some 21 := by decide
      have hy : is_numeric asciiUnicode "21".data = some 21 := by decide
      unfold numericRule
      rw [hx, hy]
      have hd : |(21 : ℚ) - 21| < numEps := by norm_num [numEps]
      simpa using hd
    unfold candidatePasses
    rw [hnum]
    simp

/-- Witness for C5 at a token outside the word-number table. -/
theorem word_number_parse_witness :
    word_number_to_int asciiUnicode "twenty hello".data = none ∧
      word_number_to_int asciiUnicode "twenty one".data = some 21 ∧
      (matchAnswer asciiUnicode none "twenty one".data
        ["21".data]).accepted = true :=
  word_number_parse asciiUnicode "twenty hello".data "hello".data
    (by decide) (by decide)

/-- C10: when the first token of the normalized user response is a single
alphanumeric character and the first token of the normalized canonical
answer is that same character, the option-token rule fires and the match
accepts, however many further words the canonical answer has. -/
theorem option_token_first_char (U : Unicode) (u ca : List Char) (c : Char)
    (h1 : firstToken (normalize_text U u) = [c])
    (h2 : isAsciiAlnum c = true)
    (h3 : firstToken (normalize_text U ca) = [c]) :
    optionRule U u ca = true ∧
      ∀ (be : Backend) (cas : List (List Char)), ca ∈ cas →
        (matchAnswer U be u cas).accepted = true := by
  have hu : normalize_option U u = [c] := by
    have hne : normalize_text U u ≠ [] := by
      intro h
      rw [h] at h1
      simp [firstToken] at h1
    simp only [normalize_option, if_neg hne, h1, optionTokenOf, h2, if_pos]
  have hca : normalize_option U ca = [c] := by
    have hne : normalize_text U ca ≠ [] := by
      intro h
      rw [h] at h3
      simp [firstToken] at h3
    simp only [normalize_option, if_neg hne, h3, optionTokenOf, h2, if_pos]
  have hopt : optionRule U u ca = true := by
    unfold optionRule
    rw [hu, hca]
    simp
  refine ⟨hopt, fun be cas hmem => ?_⟩
  apply matchAnswer_accepted_of_mem U be u ca cas hmem
  unfold candidatePasses
  rw [hopt]
  simp

/-- Witness for C10 at the multi-word canonical answer of the claim. -/
theorem option_token_first_char_witness :
    optionRule asciiUnicode "b".data "b is the correct option".data = true ∧
      (matchAnswer asciiUnicode none "b".data
        ["b is the correct option".data]).accepted = true :=
  have h := option_token_first_char asciiUnicode "b".data
    "b is the correct option".data 'b' (by decide) (by decide) (by decide)
  ⟨h.1, h.2 none _ (by decide)⟩

/-- C8: one answered question updates exactly the addressed TopicStat:
`attempted` goes up by one, `correct` goes up by one exactly when the
answer was accepted, every other entry is untouched, and
`correct ≤ attempted` is preserved (new records start at zero). -/
theorem topic_stat_update (perf : List Char → List Char → Option TopicStat)
    (key topic : List Char) (accepted : Bool)
    (hinv : ∀ st, perf key topic = some st → st.correct ≤ st.attempted) :
    askQuestionUpdate perf key topic accepted key topic =
      some ⟨((perf key topic).getD ⟨0, 0⟩).attempted + 1,
        ((perf key topic).getD ⟨0, 0⟩).correct +
          (if accepted then 1 else 0)⟩ ∧
    (∀ k t, ¬(k = key ∧ t = topic) →
      askQuestionUpdate perf key topic accepted k t = perf k t) ∧
    (∀ st, askQuestionUpdate perf key topic accepted key topic = some st →
      st.correct ≤ st.attempted) := by
  refine ⟨by simp [askQuestionUpdate], fun k t h => by simp [askQuestionUpdate, h], ?_⟩
  intro st hst
  have hst' : st =
      ⟨((perf key topic).getD ⟨0, 0⟩).attempted + 1,
        ((perf key topic).getD ⟨0, 0⟩).correct +
          (if accepted then 1 else 0)⟩ := by
    simpa [askQuestionUpdate] using hst.symm
  subst hst'
  rcases hp : perf key topic with _ | st0
  · simp [hp]
    cases accepted <;> simp
  · have h0 := hinv st0 hp
    simp [hp]
    cases accepted <;> simp <;> omega

/-- Witness for C8 starting from an empty store. -/
theorem topic_stat_update_witness :
    askQuestionUpdate (fun _ _ => none) "k".data "t".data true "k".data "t".data =
      some ⟨((none : Option TopicStat).getD ⟨0, 0⟩).attempted + 1,
        ((none : Option TopicStat).getD ⟨0, 0⟩).correct +
          (if true then 1 else 0)⟩ :=
  (topic_stat_update (fun _ _ => none) "k".data "t".data true
    (fun st h => by cases h)).1

/-- C9 counterexample: an unreadable store file is not handled — only
`json.JSONDecodeError` is caught, so the modelled `OSError` propagates
instead of yielding an empty mapping. -/
theorem load_performance_unreadable_raises :
    load_performance (fun _ => none)
        (.unreadable "permission denied".data) =
      .error "permission denied".data := rfl

/-- C1 counterexample: with the exact-match candidate listed second and a
fuzzy-only candidate first, the fuzzy-only candidate is the one
reported — the loop runs the full five-rule cascade per candidate, so
candidate order decides which canonical answer wins. -/
theorem exact_vs_fuzzy_order_dependent_cex :
    (matchAnswer asciiUnicode none "mitocondria".data
        ["mitochondria".data, "mitocondria".data]).matched =
      some "mitochondria".data ∧
      "mitochondria".data ≠ "mitocondria".data := by
  refine ⟨?_, by decide⟩
  have hun : normalize_text asciiUnicode "mitocondria".data =
      "mitocondria".data := by decide
  have hcn : normalize_text asciiUnicode "mitochondria".data =
      "mitochondria".data := by decide
  have hval : fuzzy_ratio none "mitocondria".data "mitochondria".data =
      2200 / 23 := by
    show dlRatio "mitocondria".data "mitochondria".data = 2200 / 23
    unfold dlRatio
    have hM : matchingBlocksTotal "mitocondria".data "mitochondria".data = 11 := by
      decide
    have hL : "mitocondria".data.length + "mitochondria".data.length = 23 := by
      decide
    rw [hM, hL]
    norm_num
  have hfuzzy : fuzzyRule asciiUnicode none "mitocondria".data
      "mitochondria".data = true := by
    unfold fuzzyRule
    rw [hun, hcn, hval]
    have hth : fuzzyThreshold ≤ (2200 / 23 : ℚ) := by
      norm_num [fuzzyThreshold]
    simp only [Bool.and_eq_true, decide_eq_true_eq]
    exact ⟨by decide, hth⟩
  have hpass : candidatePasses asciiUnicode none "mitocondria".data
      "mitochondria".data = true := by
    unfold candidatePasses
    rw [hfuzzy]
    simp
  simp [matchAnswer, hpass]

/-- C1 amended: with an exact-match candidate present the match always
accepts, and that candidate is the one reported when it comes first;
when a fuzzy-only candidate precedes it, the counterexample shows the
fuzzy-only candidate is reported instead. -/
theorem exact_match_priority_amended (U : Unicode) (be : Backend)
    (u e : List Char) (rest : List (List Char))
    (hne : normalize_text U u ≠ [])
    (hexact : normalize_text U u = normalize_text U e) :
    matchAnswer U be u (e :: rest) = ⟨true, some e⟩ ∧
      ∀ cas, e ∈ cas → (matchAnswer U be u cas).accepted = true := by
  have hex : exactRule U u e = true := by
    unfold exactRule
    rw [← hexact]
    simp [hne]
  have hpass : candidatePasses U be u e = true := by
    unfold candidatePasses
    rw [hex]
    simp
  exact ⟨by simp [matchAnswer, hpass],
    fun cas hmem => matchAnswer_accepted_of_mem U be u e cas hmem hpass⟩

/-- Witness for the amended C1: the exact candidate listed first is
accepted and reported even with a fuzzy-only candidate behind it. -/
theorem exact_match_priority_amended_witness :
    matchAnswer asciiUnicode none "mitocondria".data
        ["mitocondria".data, "mitochondria".data] =
      ⟨true, some "mitocondria".data⟩ :=
  (exact_match_priority_amended asciiUnicode none "mitocondria".data
    "mitocondria".data ["mitochondria".data] (by decide) (by decide)).1

/-- C9 amended: an absent, empty, or unparsable store loads as the empty
mapping (with the warning exactly in the unparsable case), while an
unreadable file raises, as the counterexample shows. -/
theorem load_performance_amended (parse : List Char → Option Json)
    (t : List Char) (hne : pyStrip t ≠ [])
    (hcorrupt : parse (pyStrip t) = none) :
    load_performance parse .absent = .ok (.obj [], false) ∧
      (∀ t', pyStrip t' = [] →
        load_performance parse (.content t') = .ok (.obj [], false)) ∧
      load_performance parse (.content t) = .ok (.obj [], true) := by
  refine ⟨rfl, fun t' h => by simp [load_performance, h], ?_⟩
  simp [load_performance, hne, hcorrupt]

/-- Witness for the amended C9 on concrete unparsable content. -/
theorem load_performance_amended_witness :
    load_performance (fun _ => none) (.content "not json".data) =
      .ok (.obj [], true) :=
  (load_performance_amended (fun _ => none) "not json".data
    (by decide) rfl).2.2

lemma runLen_le_left : ∀ a b : List Char, runLen a b ≤ a.length := by
  intro a
  induction a with
  | nil => intro b; simp [runLen]
  | cons x xs ih =>
    intro b
    cases b with
    | nil => simp [runLen]
    | cons y ys =>
      by_cases h : x = y <;> simp [runLen, h]
      exact ih ys

lemma runLen_le_right : ∀ a b : List Char, runLen a b ≤ b.length := by
  intro a
  induction a with
  | nil => intro b; simp [runLen]
  | cons x xs ih =>
    intro b
    cases b with
    | nil => simp [runLen]
    | cons y ys =>
      by_cases h : x = y <;> simp [runLen, h]
      exact ih ys

lemma foldl_preserves {α β : Type} (P : β → Prop) (f : β → α → β) :
    ∀ (l : List α) (b : β), P b → (∀ acc x, P acc → P (f acc x)) →
      P (l.foldl f b) := by
  intro l
  induction l with
  | nil => intro b hb _; exact hb
  | cons x xs ih => intro b hb hstep; exact ih (f b x) (hstep b x hb) hstep

lemma longestMatch_bounds (a b : List Char) :
    (longestMatch a b).1 + (longestMatch a b).2.2 ≤ a.length ∧
      (longestMatch a b).2.1 + (longestMatch a b).2.2 ≤ b.length := by
  unfold longestMatch
  apply foldl_preserves
    (fun acc : Nat × Nat × Nat =>
      acc.1 + acc.2.2 ≤ a.length ∧ acc.2.1 + acc.2.2 ≤ b.length)
  · exact ⟨Nat.zero_le _, Nat.zero_le _⟩
  · intro acc ij hacc
    unfold lmStep
    by_cases h : acc.2.2 < runLen (a.drop ij.1) (b.drop ij.2)
    · have h1 := runLen_le_left (a.drop ij.1) (b.drop ij.2)
      have h2 := runLen_le_right (a.drop ij.1) (b.drop ij.2)
      rw [List.length_drop] at h1
      rw [List.length_drop] at h2
      simp only [if_pos h]
      exact ⟨by omega, by omega⟩
    · simp only [if_neg h]
      exact hacc

lemma mtGo_le_min : ∀ (fuel : Nat) (a b : List Char),
    mtGo fuel a b ≤ min a.length b.length := by
  intro fuel
  induction fuel with
  | zero => intro a b; simp [mtGo]
  | succ n ih =>
    intro a b
    simp only [mtGo]
    by_cases hk : (longestMatch a b).2.2 = 0
    · simp [hk]
    · simp only [if_neg hk]
      have hb := longestMatch_bounds a b
      have h1 := ih (a.take (longestMatch a b).1) (b.take (longestMatch a b).2.1)
      have h2 := ih (a.drop ((longestMatch a b).1 + (longestMatch a b).2.2))
        (b.drop ((longestMatch a b).2.1 + (longestMatch a b).2.2))
      simp only [List.length_take, List.length_drop] at h1 h2
      omega

lemma dlRatio_bounds (a b : List Char) :
    0 ≤ dlRatio a b ∧ dlRatio a b ≤ 100 := by
  unfold dlRatio
  by_cases h : a.length + b.length = 0
  · simp [h]
  · simp only [if_neg h]
    have hM : 2 * matchingBlocksTotal a b ≤ a.length + b.length := by
      have := mtGo_le_min (a.length + b.length) a b
      unfold matchingBlocksTotal
      omega
    have hT : (0 : ℚ) < ((a.length + b.length : Nat) : ℚ) := by
      exact_mod_cast Nat.pos_of_ne_zero h
    constructor
    · positivity
    · have hdiv : 2 * (matchingBlocksTotal a b : ℚ) /
          ((a.length + b.length : Nat) : ℚ) ≤ 1 := by
        rw [div_le_one hT]
        exact_mod_cast hM
      calc 2 * (matchingBlocksTotal a b : ℚ) /
            ((a.length + b.length : Nat) : ℚ) * 100
          ≤ 1 * 100 := by
            exact mul_le_mul_of_nonneg_right hdiv (by norm_num)
        _ = 100 := by norm_num

/-- C7: the fuzzy-similarity computation is total and stays in 0–100:
with no usable backend it is the `difflib` ratio scaled to 0–100, a
backend exception falls back to that same ratio, and a successful
backend score (which `rapidfuzz` guarantees to lie in 0–100) is
returned as is. -/
theorem fuzzy_ratio_resilient (be : Backend) (a b : List Char)
    (hbe : ∀ f q, be = some f → f a b = .ok q → 0 ≤ q ∧ q ≤ 100) :
    (0 ≤ fuzzy_ratio be a b ∧ fuzzy_ratio be a b ≤ 100) ∧
      fuzzy_ratio none a b = dlRatio a b ∧
      (∀ f msg, be = some f → f a b = .error msg →
        fuzzy_ratio be a b = dlRatio a b) := by
  refine ⟨?_, rfl, ?_⟩
  · rcases be with _ | f
    · exact dlRatio_bounds a b
    · rcases hf : f a b with msg | q
      · simp only [fuzzy_ratio, hf]
        exact dlRatio_bounds a b
      · simp only [fuzzy_ratio, hf]
        exact hbe f q rfl hf
  · intro f msg hbe' hf
    subst hbe'
    simp only [fuzzy_ratio, hf]

/-- Witness for C7 with a backend that always raises: the fallback keeps
the score in range. -/
theorem fuzzy_ratio_resilient_witness :
    0 ≤ fuzzy_ratio (some (fun _ _ => Except.error "backend failure".data))
        "colour".data "color".data ∧
      fuzzy_ratio (some (fun _ _ => Except.error "backend failure".data))
        "colour".data "color".data ≤ 100 :=
  (fuzzy_ratio_resilient
    (some (fun _ _ => Except.error "backend failure".data))
    "colour".data "color".data
    (fun f q hf hq => by
      obtain rfl := Option.some.inj hf
      simp at hq)).1

lemma sepOk_tail {a : Char} {l : List Char} (h : sepOk (a :: l) = true) :
    sepOk l = true := by
  cases l with
  | nil => rfl
  | cons b rest =>
    simp only [sepOk, Bool.and_eq_true] at h
    exact h.2

lemma sepOk_head {a b : Char} {l : List Char}
    (h : sepOk (a :: b :: l) = true) : ¬(a = ' ' ∧ b = ' ') := by
  simp only [sepOk, Bool.and_eq_true, Bool.not_eq_true'] at h
  intro hab
  rcases h with ⟨h1, _⟩
  simp [hab.1, hab.2] at h1

lemma isKeep_not_space {c : Char} (h : isKeep c = true) :
    pyIsSpace c = false := by
  simp only [isKeep, Bool.or_eq_true, Bool.and_eq_true, decide_eq_true_eq] at h
  simp only [pyIsSpace, Bool.or_eq_false_iff, beq_eq_false_iff_ne, ne_eq,
    Bool.and_eq_false_iff, decide_eq_false_iff_not, not_le]
  omega

lemma space_not_keep : isKeep ' ' = false := by decide

lemma not_space_ne {c : Char} (h : pyIsSpace c = false) : c ≠ ' ' := by
  intro hc
  subst hc
  exact absurd h (by decide)

lemma mem_collapseAux : ∀ (fl : Bool) (l : List Char) (c : Char),
    c ∈ collapseAux fl l → c = ' ' ∨ (c ∈ l ∧ pyIsSpace c = false) := by
  intro fl l
  induction l generalizing fl with
  | nil => intro c h; simp [collapseAux] at h
  | cons d rest ih =>
    intro c h
    simp only [collapseAux] at h
    by_cases hd : pyIsSpace d = true
    · rw [if_pos hd] at h
      cases fl with
      | true =>
        rcases ih true c h with h' | h'
        · exact Or.inl h'
        · exact Or.inr ⟨List.mem_cons_of_mem d h'.1, h'.2⟩
      | false =>
        rcases List.mem_cons.mp h with h' | h'
        · exact Or.inl h'
        · rcases ih true c h' with h'' | h''
          · exact Or.inl h''
          · exact Or.inr ⟨List.mem_cons_of_mem d h''.1, h''.2⟩
    · rw [if_neg hd] at h
      rcases List.mem_cons.mp h with h' | h'
      · subst h'
        exact Or.inr ⟨List.mem_cons_self c rest, by simpa using hd⟩
      · rcases ih false c h' with h'' | h''
        · exact Or.inl h''
        · exact Or.inr ⟨List.mem_cons_of_mem d h''.1, h''.2⟩

lemma collapseAux_true_head : ∀ (l : List Char) (c : Char),
    (collapseAux true l).head? = some c → pyIsSpace c = false := by
  intro l
  induction l with
  | nil => intro c h; simp [collapseAux] at h
  | cons d rest ih =>
    intro c h
    simp only [collapseAux] at h
    by_cases hd : pyIsSpace d = true
    · rw [if_pos hd] at h
      exact ih c h
    · rw [if_neg hd] at h
      simp only [List.head?_cons, Option.some.injEq] at h
      subst h
      simpa using hd

lemma sepOk_collapseAux : ∀ (fl : Bool) (l : List Char),
    sepOk (collapseAux fl l) = true := by
  intro fl l
  induction l generalizing fl with
  | nil => simp [collapseAux, sepOk]
  | cons d rest ih =>
    simp only [collapseAux]
    by_cases hd : pyIsSpace d = true
    · rw [if_pos hd]
      cases fl with
      | true => exact ih true
      | false =>
        rcases hout : collapseAux true rest with _ | ⟨b, l2⟩
        · simp [sepOk]
        · have hb : pyIsSpace b = false :=
            collapseAux_true_head rest b (by rw [hout]; rfl)
          have hb' : b ≠ ' ' := not_space_ne hb
          have hrest := ih true
          rw [hout] at hrest
          simp [sepOk, hb', hrest]
    · rw [if_neg hd]
      have hd' : d ≠ ' ' := not_space_ne (by simpa using hd)
      rcases hout : collapseAux false rest with _ | ⟨b, l2⟩
      · simp [sepOk]
      · have hrest := ih false
        rw [hout] at hrest
        simp [sepOk, hd', hrest]

lemma sepOk_dropWhile (p : Char → Bool) : ∀ l : List Char,
    sepOk l = true → sepOk (l.dropWhile p) = true := by
  intro l
  induction l with
  | nil => intro h; simpa using h
  | cons d rest ih =>
    intro h
    rw [List.dropWhile_cons]
    by_cases hp : p d = true
    · rw [if_pos hp]
      exact ih (sepOk_tail h)
    · rw [if_neg hp]
      exact h

lemma dropTrailingWs_head : ∀ (l : List Char) (c : Char),
    (dropTrailingWs l).head? = some c → l.head? = some c := by
  intro l c h
  cases l with
  | nil => simp [dropTrailingWs] at h
  | cons d rest =>
    simp only [dropTrailingWs] at h
    split at h
    · simp at h
    · simp only [List.head?_cons, Option.some.injEq] at h
      simp [h]

lemma mem_dropTrailingWs : ∀ (l : List Char) (c : Char),
    c ∈ dropTrailingWs l → c ∈ l := by
  intro l
  induction l with
  | nil => intro c h; simp [dropTrailingWs] at h
  | cons d rest ih =>
    intro c h
    simp only [dropTrailingWs] at h
    split at h
    · simp at h
    · rcases List.mem_cons.mp h with h' | h'
      · simp [h']
      · exact List.mem_cons_of_mem d (ih c h')

lemma sepOk_dropTrailingWs : ∀ l : List Char,
    sepOk l = true → sepOk (dropTrailingWs l) = true := by
  intro l
  induction l with
  | nil => intro h; simpa using h
  | cons d rest ih =>
    intro h
    simp only [dropTrailingWs]
    split
    · rfl
    · rcases hout : dropTrailingWs rest with _ | ⟨b, l2⟩
      · simp [sepOk]
      · have hb : rest.head? = some b :=
          dropTrailingWs_head rest b (by rw [hout]; rfl)
      
        cases rest with
        | nil => simp at hb
        | cons b' rest2 =>
          simp only [List.head?_cons, Option.some.injEq] at hb
          subst hb
          have hpair := sepOk_head h
          have htail := ih (sepOk_tail h)
          rw [hout] at htail
          simp only [sepOk, Bool.and_eq_true, htail, and_true,
            Bool.not_eq_true', Bool.and_eq_false_iff, decide_eq_false_iff_not]
          by_cases hd : d = ' '
          · exact Or.inr (fun hb2 => hpair ⟨hd, hb2⟩)
          · exact Or.inl hd

lemma head_dropWhile_false (p : Char → Bool) : ∀ (l : List Char) (c : Char),
    (l.dropWhile p).head? = some c → p c = false := by
  intro l
  induction l with
  | nil => intro c h; simp at h
  | cons d rest ih =>
    intro c h
    rw [List.dropWhile_cons] at h
    by_cases hp : p d = true
    · rw [if_pos hp] at h
      exact ih c h
    · rw [if_neg hp] at h
      simp only [List.head?_cons, Option.some.injEq] at h
      subst h
      simpa using hp

lemma dropWhile_eq_self_of_head (p : Char → Bool) (l : List Char)
    (h : ∀ c, l.head? = some c → p c = false) : l.dropWhile p = l := by
  cases l with
  | nil => rfl
  | cons d rest =>
    rw [List.dropWhile_cons, if_neg]
    simp [h d rfl]

lemma dropTrailingWs_idem : ∀ l : List Char,
    dropTrailingWs (dropTrailingWs l) = dropTrailingWs l := by
  intro l
  induction l with
  | nil => rfl
  | cons d rest ih =>
    simp only [dropTrailingWs]
    split
    · rfl
    · rename_i hcond
      simp only [dropTrailingWs, ih]
      rw [if_neg hcond]

lemma quoteMap_fix {c : Char} (h : isKeep c = true ∨ c = ' ') :
    quoteMap c = c := by
  have hc : c ≠ '’' ∧ c ≠ '‘' ∧ c ≠ '“' ∧ c ≠ '”' := by
    rcases h with hk | hsp
    · refine ⟨?_, ?_, ?_, ?_⟩ <;>
        (intro he; rw [he] at hk; exact absurd hk (by decide))
    · subst hsp
      exact ⟨by decide, by decide, by decide, by decide⟩
  unfold quoteMap
  rw [if_neg hc.1, if_neg hc.2.1, if_neg hc.2.2.1, if_neg hc.2.2.2]

lemma map_quoteMap_fix : ∀ t : List Char,
    (∀ c ∈ t, isKeep c = true ∨ c = ' ') → t.map quoteMap = t := by
  intro t
  induction t with
  | nil => intro _; rfl
  | cons d rest ih =>
    intro h
    rw [List.map_cons, quoteMap_fix (h d (List.mem_cons_self d rest)),
      ih (fun c hc => h c (List.mem_cons_of_mem d hc))]

lemma flatMap_lower_fix (U : Unicode)
    (hl : ∀ c, isKeep c = true ∨ c = ' ' → U.lower c = [c]) :
    ∀ t : List Char, (∀ c ∈ t, isKeep c = true ∨ c = ' ') →
      t.flatMap U.lower = t := by
  intro t
  induction t with
  | nil => intro _; rfl
  | cons d rest ih =>
    intro h
    rw [List.flatMap_cons, hl d (h d (List.mem_cons_self d rest)),
      ih (fun c hc => h c (List.mem_cons_of_mem d hc))]
    rfl

lemma punctMap_fix {c : Char} (h : isKeep c = true ∨ c = ' ') :
    punctMap c = c := by
  unfold punctMap
  rcases h with hk | hsp
  · rw [if_pos (by simp [hk])]
  · subst hsp
    rw [if_pos (by decide)]

lemma map_punctMap_fix : ∀ t : List Char,
    (∀ c ∈ t, isKeep c = true ∨ c = ' ') → t.map punctMap = t := by
  intro t
  induction t with
  | nil => intro _; rfl
  | cons d rest ih =>
    intro h
    rw [List.map_cons, punctMap_fix (h d (List.mem_cons_self d rest)),
      ih (fun c hc => h c (List.mem_cons_of_mem d hc))]

lemma pyStrip_fix (t : List Char) (h3 : t.dropWhile pyIsSpace = t)
    (h4 : dropTrailingWs t = t) : pyStrip t = t := by
  unfold pyStrip
  rw [h3, h4]

lemma collapseAux_cons_space (rest : List Char) :
    collapseAux false (' ' :: rest) = ' ' :: collapseAux true rest := by
  simp [collapseAux, show pyIsSpace ' ' = true from by decide]

lemma collapseAux_cons_nonspace (fl : Bool) (d : Char) (rest : List Char)
    (hd : pyIsSpace d = false) :
    collapseAux fl (d :: rest) = d :: collapseAux false rest := by
  simp [collapseAux, hd]

lemma collapseAux_eq_self : ∀ t : List Char,
    (∀ c ∈ t, isKeep c = true ∨ c = ' ') → sepOk t = true →
      collapseAux false t = t := by
  intro t
  induction t with
  | nil => intro _ _; rfl
  | cons d rest ih =>
    intro hchars hsep
    rcases hchars d (List.mem_cons_self d rest) with hk | hsp
    · rw [collapseAux_cons_nonspace false d rest (isKeep_not_space hk),
        ih (fun c hc => hchars c (List.mem_cons_of_mem d hc))
          (sepOk_tail hsep)]
    · subst hsp
      rw [collapseAux_cons_space rest]
      congr 1
      cases rest with
      | nil => rfl
      | cons b rest2 =>
        have hb : b ≠ ' ' := by
          intro hb'
          exact sepOk_head hsep ⟨rfl, hb'⟩
        have hbk : isKeep b = true := by
          rcases hchars b (List.mem_cons_of_mem _ (List.mem_cons_self b rest2))
            with h | h
          · exact h
          · exact absurd h hb
        have hrec := ih
          (fun c hc => hchars c (List.mem_cons_of_mem _ hc))
          (sepOk_tail hsep)
        rw [collapseAux_cons_nonspace false b rest2 (isKeep_not_space hbk)]
          at hrec
        rw [collapseAux_cons_nonspace true b rest2 (isKeep_not_space hbk)]
        exact hrec

lemma stripCollapse_inv (s4 : List Char)
    (hchars : ∀ c ∈ s4, pyIsSpace c = false → isKeep c = true) :
    (∀ c ∈ pyStrip (collapseAux false s4), isKeep c = true ∨ c = ' ') ∧
      sepOk (pyStrip (collapseAux false s4)) = true ∧
      (pyStrip (collapseAux false s4)).dropWhile pyIsSpace =
        pyStrip (collapseAux false s4) ∧
      dropTrailingWs (pyStrip (collapseAux false s4)) =
        pyStrip (collapseAux false s4) := by
  refine ⟨?_, ?_, ?_, ?_⟩
  · intro c hc
    have hc1 : c ∈ (collapseAux false s4).dropWhile pyIsSpace :=
      mem_dropTrailingWs _ c hc
    have hc2 : c ∈ collapseAux false s4 :=
      (List.dropWhile_suffix pyIsSpace).mem hc1
    rcases mem_collapseAux false s4 c hc2 with h | h
    · exact Or.inr h
    · exact Or.inl (hchars c h.1 h.2)
  · exact sepOk_dropTrailingWs _
      (sepOk_dropWhile pyIsSpace _ (sepOk_collapseAux false s4))
  · apply dropWhile_eq_self_of_head
    intro c hc
    exact head_dropWhile_false pyIsSpace (collapseAux false s4) c
      (dropTrailingWs_head _ c hc)
  · exact dropTrailingWs_idem _

lemma normalize_inv (U : Unicode) (s : List Char) :
    (∀ c ∈ normalize_text U s, isKeep c = true ∨ c = ' ') ∧
      sepOk (normalize_text U s) = true ∧
      (normalize_text U s).dropWhile pyIsSpace = normalize_text U s ∧
      dropTrailingWs (normalize_text U s) = normalize_text U s := by
  apply stripCollapse_inv
  intro c hc hws
  rcases List.mem_map.mp hc with ⟨c', _, rfl⟩
  unfold punctMap at hws ⊢
  by_cases hcond : (isKeep c' || pyIsSpace c') = true
  · rw [if_pos hcond] at hws ⊢
    by_cases h : isKeep c' = true
    · exact h
    · have h2 : pyIsSpace c' = true := by
        simp only [Bool.not_eq_true] at h
        simpa [h] using hcond
      rw [h2] at hws
      cases hws
  · rw [if_neg hcond] at hws
    exact absurd hws (by decide)

/-- C3: `normalize_text` is idempotent — for every input, normalizing a
second time changes nothing, given that the NFKC normalization fixes
strings over the output alphabet `[0-9a-z ]` and `str.lower` fixes each
of its characters (both true of CPython, since that alphabet is
lowercase ASCII). -/
theorem normalize_text_idempotent (U : Unicode)
    (hn : ∀ l, (∀ c ∈ l, isKeep c = true ∨ c = ' ') → U.nfkc l = l)
    (hl : ∀ c, isKeep c = true ∨ c = ' ' → U.lower c = [c])
    (s : List Char) :
    normalize_text U (normalize_text U s) = normalize_text U s := by
  obtain ⟨h1, h2, h3, h4⟩ := normalize_inv U s
  show pyStrip (collapseAux false
    ((((pyStrip (((U.nfkc (normalize_text U s)).map quoteMap))).flatMap
      U.lower)).map punctMap)) = normalize_text U s
  rw [hn (normalize_text U s) h1, map_quoteMap_fix _ h1,
    pyStrip_fix _ h3 h4, flatMap_lower_fix U hl _ h1,
    map_punctMap_fix _ h1, collapseAux_eq_self _ h1 h2,
    pyStrip_fix _ h3 h4]

lemma asciiLower_fix : ∀ c : Char, isKeep c = true ∨ c = ' ' →
    asciiLower c = [c] := by
  intro c h
  unfold asciiLower
  rw [if_neg ?_]
  rcases h with hk | hsp
  · simp only [isKeep, Bool.or_eq_true, Bool.and_eq_true,
      decide_eq_true_eq] at hk
    simp only [Bool.and_eq_true, decide_eq_true_eq, not_and]
    omega
  · subst hsp
    decide

/-- Witness for C3 on a concrete messy input. -/
theorem normalize_text_idempotent_witness :
    normalize_text asciiUnicode
        (normalize_text asciiUnicode "  What’s  the POWER-house?!  ".data) =
      normalize_text asciiUnicode "  What’s  the POWER-house?!  ".data :=
  normalize_text_idempotent asciiUnicode (fun _ _ => rfl) asciiLower_fix
    "  What’s  the POWER-house?!  ".data
